import Mathlib

/-!
Verification of the VoiceReader TTS engine (screen_reader_tts repository).

This file shallowly embeds the parts of the engine that the specification
claims talk about:

* string helpers mirroring the Python built-ins used by the engine
  (strip, lower, find, rfind, slicing);
* the request validators of tts_engine/schemas.py
  (ActivateModelRequest.validate_synth_backend, SpeakRequest.normalize_voice_id)
  together with the generic validation-error handler of tts_engine/errors.py;
* the text chunker of tts_engine/chunking.py
  (split_text_into_chunks, _extract_sentence_spans, _split_span_by_chars);
* the job manager of tts_engine/jobs.py: the start/cancel/finish/prune
  transitions on its job map, the event history produced by _run_job,
  _apply_playback_controls and _decompose_tempo_factors;
* the activate_model handler of tts_engine/app.py.

Python strings are modelled as List Char, machine floats of the playback
pipeline as rationals, byte buffers as lists of naturals below 256.
Loops are translated fuel-style: every loop gets a fuel argument that
dominates the number of iterations the source loop performs, so the
wrappers with their fixed fuel agree with the source; the safety
properties proved below hold for every fuel value.
-/

/-! ## Python string primitives -/

/-- Whitespace test used by the engine, modelling str.isspace on the
whitespace characters that occur in practice (ASCII space, tab, newline,
carriage return, vertical tab, form feed). -/
def pyIsSpace (c : Char) : Bool :=
  c = ' ' || c = '\t' || c = '\n' || c = '\r' || c = '\x0b' || c = '\x0c'

/-- Python str.strip(): drop whitespace from both ends. -/
def pyStrip (l : List Char) : List Char :=
  ((l.dropWhile pyIsSpace).reverse.dropWhile pyIsSpace).reverse

/-- Python str.lower() on the ASCII letters (sufficient for the backend
names the engine compares against). -/
def pyLower (l : List Char) : List Char :=
  l.map Char.toLower

/-- Python slicing text[s:e] for 0 <= s <= e (the only form the chunker uses). -/
def pySlice (l : List Char) (s e : Nat) : List Char :=
  (l.take e).drop s

/-- Helper loop of str.find: first index i (starting from the given one)
where the pattern occurs, none when there is no occurrence.  The fuel
dominates the number of candidate positions, hay.length + 1 in the wrapper. -/
def pyFindAux (hay pat : List Char) : Nat → Nat → Option Nat
  | 0, _ => none
  | fuel + 1, i =>
    if i ≤ hay.length then
      if pat.isPrefixOf (hay.drop i) then some i
      else pyFindAux hay pat fuel (i + 1)
    else none

/-- Python hay.find(pat): index of the first occurrence, -1 when absent. -/
def pyFind (hay pat : List Char) : Int :=
  match pyFindAux hay pat (hay.length + 1) 0 with
  | some k => (k : Int)
  | none => -1

/-- Helper loop of str.rfind(" ", lo, hi): scan indices below hi, downward,
stopping at lo, returning the largest index holding a space. -/
def pyRFindSpaceAux (text : List Char) (lo : Nat) : Nat → Option Nat
  | 0 => none
  | j + 1 =>
    if lo ≤ j then
      if text.getD j ' ' = ' ' ∧ j < text.length then some j
      else pyRFindSpaceAux text lo j
    else none

/-- Python text.rfind(" ", lo, hi): last index in [lo, hi) that holds a
space character, -1 when there is none. -/
def pyRFindSpace (text : List Char) (lo hi : Nat) : Int :=
  match pyRFindSpaceAux text lo (min hi text.length) with
  | some k => (k : Int)
  | none => -1

/-! ## tts_engine/schemas.py: request validation -/

/-- DEFAULT_VOICE_ID.  Modelled from the spec: tts_engine/constants.py is not
part of the provided sources; the spec fixes the built-in default voice id to
the literal string "0" (also echoed by the FORBIDDEN messages in app.py). -/
def DEFAULT_VOICE_ID : List Char := ['0']

/-- ActivateModelRequest.validate_synth_backend (schemas.py).  None is kept,
a value is trimmed and lowercased, an empty result becomes None, and only
the literal set auto / qwen / mock is accepted; anything else raises a
ValueError, which pydantic turns into a request-validation failure. -/
def validate_synth_backend (value : Option (List Char)) :
    Except (List Char) (Option (List Char)) :=
  match value with
  | none => .ok none
  | some v =>
    let normalized := pyLower (pyStrip v)
    if normalized = [] then .ok none
    else if normalized = "auto".toList ∨ normalized = "qwen".toList ∨
        normalized = "mock".toList then .ok (some normalized)
    else .error "synth_backend must be one of: auto, qwen, mock".toList

/-- Backend gate of create_synthesizer (synth.py): the trimmed, lowercased
backend choice must be one of auto / kyutai / qwen / mock, otherwise the
factory raises a RuntimeError. -/
def create_synthesizer_backend_choice (synth_backend : List Char) :
    Except (List Char) (List Char) :=
  let backend_choice := pyLower (pyStrip synth_backend)
  if ¬ (backend_choice = "auto".toList ∨ backend_choice = "kyutai".toList ∨
      backend_choice = "qwen".toList ∨ backend_choice = "mock".toList) then
    .error "Invalid VOICEREADER_SYNTH_BACKEND. Use one of: auto, kyutai, qwen, mock.".toList
  else .ok backend_choice

/-- Hexadecimal digit test for the UUID parser. -/
def isHexDigit (c : Char) : Bool :=
  ('0' ≤ c ∧ c ≤ '9') || ('a' ≤ c ∧ c ≤ 'f') || ('A' ≤ c ∧ c ≤ 'F')

/-- Loop of str.replace(pat, ""): skip past each occurrence of the pattern,
keep other characters.  The fuel dominates the input length. -/
def removeAllF (pat : List Char) : Nat → List Char → List Char
  | 0, l => l
  | _ + 1, [] => []
  | fuel + 1, c :: rest =>
    if pat ≠ [] ∧ pat.isPrefixOf (c :: rest) then
      removeAllF pat fuel ((c :: rest).drop pat.length)
    else c :: removeAllF pat fuel rest

/-- Remove every occurrence of a pattern from a list (str.replace(pat, "")). -/
def removeAll (pat l : List Char) : List Char :=
  removeAllF pat (l.length + 1) l

/-- Python str.strip(chars) for the brace pair, as used by uuid.UUID. -/
def stripBraces (l : List Char) : List Char :=
  let isBrace : Char → Bool := fun c => c = '\x7b' || c = '\x7d'
  ((l.dropWhile isBrace).reverse.dropWhile isBrace).reverse

/-- Validity test of the standard-library uuid.UUID(str) constructor as the
engine uses it: remove the urn: and uuid: markers, strip surrounding braces,
remove dashes, and require exactly 32 hexadecimal digits. -/
def pyUUIDValid (s : List Char) : Bool :=
  let hex := removeAll "uuid:".toList (removeAll "urn:".toList s)
  let hex := (removeAll "-".toList (stripBraces hex))
  hex.length = 32 && hex.all isHexDigit

/-- Python values a JSON body can put in the voice_id field. -/
inductive PyVoiceId where
  | none
  | int (n : Int)
  | str (s : List Char)
  | other
deriving DecidableEq

/-- Python str(n) for the integers that reach normalize_voice_id. -/
def pyIntToStr (n : Int) : List Char :=
  (toString n).toList

/-- Shared tail of normalize_voice_id once the value is a string: trim, fall
back to the default id when empty, accept the literal default id, and
otherwise require the UUID constructor to succeed. -/
def normalize_voice_str (v : List Char) : Except (List Char) (List Char) :=
  let normalized := pyStrip v
  if normalized = [] then .ok DEFAULT_VOICE_ID
  else if normalized = DEFAULT_VOICE_ID then .ok normalized
  else if pyUUIDValid normalized then .ok normalized
  else .error "voice_id must be a UUID string".toList

/-- SpeakRequest.normalize_voice_id (schemas.py).  None falls back to the
default voice id, integers are stringified, non-strings are rejected; a
string is trimmed, an empty result falls back to the default id, the literal
default id passes, and anything else must parse as a UUID. -/
def normalize_voice_id (value : PyVoiceId) : Except (List Char) (List Char) :=
  match value with
  | .none => .ok DEFAULT_VOICE_ID
  | .int n => normalize_voice_str (pyIntToStr n)
  | .other => .error "voice_id must be a string".toList
  | .str v => normalize_voice_str v

instance {ε α : Type} [DecidableEq ε] [DecidableEq α] : DecidableEq (Except ε α) := fun x y =>
  match x, y with
  | .ok a, .ok b =>
    if h : a = b then .isTrue (by rw [h]) else .isFalse (by intro hc; cases hc; exact h rfl)
  | .error a, .error b =>
    if h : a = b then .isTrue (by rw [h]) else .isFalse (by intro hc; cases hc; exact h rfl)
  | .ok _, .error _ => .isFalse (by intro hc; cases hc)
  | .error _, .ok _ => .isFalse (by intro hc; cases hc)

/-- HTTP error envelope: status code plus machine-readable code string. -/
structure ErrorOut where
  status : Nat
  code : List Char
deriving DecidableEq

/-- Outcome of the voice_id handling of POST /v1/speak: a schema validation
failure is turned into HTTP 400 INVALID_REQUEST by the
RequestValidationError handler of errors.py; a well-formed id is then looked
up in the voice store (404 VOICE_NOT_FOUND when absent) and checked against
the synthesizer capabilities (409 MODEL_NOT_READY), following the speak
handler in app.py. -/
def speakVoiceIdOutcome (value : PyVoiceId)
    (voiceExists supportsVoiceId : List Char → Bool) :
    Except ErrorOut (List Char) :=
  match normalize_voice_id value with
  | .error _ => .error ⟨400, "INVALID_REQUEST".toList⟩
  | .ok voice_id =>
    if ¬ voiceExists voice_id then .error ⟨404, "VOICE_NOT_FOUND".toList⟩
    else if ¬ supportsVoiceId voice_id then .error ⟨409, "MODEL_NOT_READY".toList⟩
    else .ok voice_id

/-! ## tts_engine/jobs.py: _decompose_tempo_factors -/

/-- First loop of _decompose_tempo_factors: while the remaining rate exceeds
2.0, append the factor 2.0 and halve.  Halving a float by two is exact, so
rationals model the source faithfully; the fuel (rate.num.natAbs at the call
site) dominates the number of halvings. -/
def halveLoop : Nat → ℚ → List ℚ × ℚ
  | 0, remaining => ([], remaining)
  | fuel + 1, remaining =>
    if 2 < remaining then
      let r := halveLoop fuel (remaining / 2)
      ((2 : ℚ) :: r.1, r.2)
    else ([], remaining)

/-- Second loop of _decompose_tempo_factors: while the remaining rate is
below 0.5, append the factor 0.5 and divide by 0.5. -/
def doubleLoop : Nat → ℚ → List ℚ × ℚ
  | 0, remaining => ([], remaining)
  | fuel + 1, remaining =>
    if remaining < 1 / 2 then
      let r := doubleLoop fuel (remaining / (1 / 2))
      ((1 / 2 : ℚ) :: r.1, r.2)
    else ([], remaining)

/-- jobs.py _decompose_tempo_factors: empty for a non-positive rate,
otherwise halve above 2.0, double below 0.5, and append the residual. -/
def _decompose_tempo_factors (rate : ℚ) : List ℚ :=
  if rate ≤ 0 then []
  else
    let h := halveLoop rate.num.natAbs rate
    let d := doubleLoop rate.den h.2
    h.1 ++ d.1 ++ [d.2]

/-! ## tts_engine/jobs.py: _apply_playback_controls -/

/-- SynthesizedAudio (synth.py): little-endian signed 16-bit PCM bytes
(naturals below 256), sample rate in Hz, channel count. -/
structure SynthesizedAudio where
  pcm_s16le : List Nat
  sample_rate : Nat
  channels : Nat
deriving DecidableEq

/-- Decode one little-endian int16 sample from two bytes. -/
def int16OfBytes (lo hi : Nat) : Int :=
  let u := lo % 256 + 256 * (hi % 256)
  if u < 32768 then (u : Int) else (u : Int) - 65536

/-- np.frombuffer(buffer, dtype=np.int16): consecutive little-endian byte
pairs decoded as signed 16-bit samples. -/
def bytesToSamples : List Nat → List Int
  | lo :: hi :: rest => int16OfBytes lo hi :: bytesToSamples rest
  | _ => []

/-- Encode one int16 value back into two little-endian bytes
(ndarray.tobytes after astype(np.int16)). -/
def bytesOfInt16 (i : Int) : List Nat :=
  let u := (i % 65536).toNat
  [u % 256, u / 256]

/-- Serialize a sample list to a PCM byte buffer. -/
def samplesToBytes (l : List Int) : List Nat :=
  (l.map bytesOfInt16).flatten

/-- np.clip(x, -32768.0, 32767.0). -/
def clipSample (q : ℚ) : ℚ :=
  max (-32768) (min q 32767)

/-- Float to int16 conversion of ndarray.astype(np.int16): truncation toward
zero. -/
def truncToInt (q : ℚ) : Int :=
  q.num.tdiv (q.den : Int)

/-- jobs.py _apply_playback_controls.  The float samples are rationals; the
pitch-preserving time stretch (_time_stretch_preserve_pitch, which shells
out to sox or falls back to librosa or linear interpolation) is an opaque
parameter since it crosses the process boundary.  The fast path for unit
settings, the empty-buffer check, the unused pitch field, the volume
multiplication, the clipping and the re-encoding follow the source. -/
def _apply_playback_controls
    (timeStretch : List ℚ → ℚ → Nat → List ℚ)
    (audio : SynthesizedAudio) (rate pitch volume : ℚ) : SynthesizedAudio :=
  if rate = 1 ∧ pitch = 1 ∧ volume = 1 then audio
  else
    let samples := (bytesToSamples audio.pcm_s16le).map (fun i => (i : ℚ))
    if samples.length = 0 then audio
    else
      let samples := if rate ≠ 1 then timeStretch samples rate audio.sample_rate else samples
      let samples := if volume ≠ 1 then samples.map (fun s => s * volume) else samples
      let samples := samples.map clipSample
      { pcm_s16le := samplesToBytes (samples.map truncToInt)
        sample_rate := audio.sample_rate
        channels := audio.channels }

/-! ## tts_engine/jobs.py: the event history written by _run_job -/

/-- Events a job can publish to its history. -/
inductive JobEvent where
  | started
  | audioChunk (seq : Nat)
  | jobDone
  | jobCanceled
  | jobError
deriving DecidableEq

/-- TERMINAL_EVENT_TYPES of jobs.py. -/
def isTerminalEvent : JobEvent → Bool
  | .jobDone => true
  | .jobCanceled => true
  | .jobError => true
  | _ => false

/-- Environment of one loop iteration of _run_job: which of the guards and
awaits fires for this chunk.  cancelAtLoopTop, cancelAfterSynth and
cancelAfterControls are the three cancel_event checks; abortInSynth is a
CancelledError delivered while awaiting the synthesis worker (the handler
publishes JOB_CANCELED because the history cannot yet hold a terminal
event); errorInSynth is any other exception from synthesis or
post-processing (JOB_ERROR with code INFERENCE_FAILED); emit publishes the
AUDIO_CHUNK and continues; emitThenAbort publishes the AUDIO_CHUNK and then
receives a CancelledError at the sleep(0) yield point. -/
inductive ChunkStep where
  | cancelAtLoopTop
  | abortInSynth
  | errorInSynth
  | cancelAfterSynth
  | cancelAfterControls
  | emit
  | emitThenAbort
deriving DecidableEq

/-- Loop body of _run_job over the chunk list: the events appended after
JOB_STARTED, with the AUDIO_CHUNK sequence number starting at the given
value and finalCancel telling whether cancel_event is set after the loop. -/
def runLoopEvents : List ChunkStep → Nat → Bool → List JobEvent
  | [], _, finalCancel => [if finalCancel then .jobCanceled else .jobDone]
  | step :: rest, seq, finalCancel =>
    match step with
    | .cancelAtLoopTop => [.jobCanceled]
    | .abortInSynth => [.jobCanceled]
    | .errorInSynth => [.jobError]
    | .cancelAfterSynth => [.jobCanceled]
    | .cancelAfterControls => [.jobCanceled]
    | .emit => .audioChunk seq :: runLoopEvents rest (seq + 1) finalCancel
    | .emitThenAbort => [.audioChunk seq, .jobCanceled]

/-- Complete event history of a job whose worker ran to its finally block
(exactly the jobs whose done signal fires): JOB_STARTED followed by the loop
events with sequence numbers from 1. -/
def jobHistory (steps : List ChunkStep) (finalCancel : Bool) : List JobEvent :=
  .started :: runLoopEvents steps 1 finalCancel

/-! ## tts_engine/jobs.py: the JobManager job map -/

/-- One entry of the JobManager job dict, keeping only the signals the
invariant talks about: the job id and the states of the cancel and done
events. -/
structure JobRec where
  id : Nat
  cancel : Bool
  done : Bool
deriving DecidableEq

/-- JobManager state: the job map (a dict keyed by job_id, modelled as a
list of records with distinct ids), the optional active job id, and the
counter supplying fresh ids (uuid4 in the source). -/
structure JMState where
  jobs : List JobRec
  active : Option Nat
  nextId : Nat
deriving DecidableEq

/-- JobManager.start_job under its lock: when an active job exists and its
done event is unfired, set its cancel event (without waiting); then insert
a fresh job with both events unfired and mark it active.  The dict update
is modelled on the list entry carrying the active id. -/
def start_job (s : JMState) : JMState :=
  let jobs :=
    match s.active with
    | some a =>
      s.jobs.map (fun j =>
        if j.id = a ∧ j.done = false then { j with cancel := true } else j)
    | none => s.jobs
  { jobs := jobs ++ [⟨s.nextId, false, false⟩]
    active := some s.nextId
    nextId := s.nextId + 1 }

/-- JobManager.cancel_job: set the cancel event of the addressed job (a
no-op on the map when the id is unknown). -/
def cancel_job (s : JMState) (id : Nat) : JMState :=
  { s with jobs := s.jobs.map (fun j =>
      if j.id = id then { j with cancel := true } else j) }

/-- Finally block of JobManager._run_job: fire the done event of the job
and clear the active id when it still points at this job. -/
def finish_job (s : JMState) (id : Nat) : JMState :=
  { jobs := s.jobs.map (fun j =>
      if j.id = id then { j with done := true } else j)
    active := if s.active = some id then none else s.active
    nextId := s.nextId }

/-- Transitions of the JobManager: start_job, cancel_job, the worker
finally block, and _prune_finished_jobs_locked (which only ever removes
jobs whose done event has fired). -/
inductive JMStep : JMState → JMState → Prop
  | start (s : JMState) : JMStep s (start_job s)
  | cancel (s : JMState) (id : Nat) : JMStep s (cancel_job s id)
  | finish (s : JMState) (id : Nat) : JMStep s (finish_job s id)
  | prune (s : JMState) (keep : JobRec → Bool)
      (hkeep : ∀ j, keep j = false → j.done = true) :
      JMStep s { s with jobs := s.jobs.filter keep }

/-- Fresh JobManager as built by JobManager.__init__. -/
def JMInit : JMState := ⟨[], none, 0⟩

/-- States the JobManager can actually reach from a fresh instance. -/
inductive JMReachable : JMState → Prop
  | init : JMReachable JMInit
  | step {s t : JMState} : JMReachable s → JMStep s t → JMReachable t

/-- Invariant of the job map: every job with both the done and the cancel
event unfired is the job the active id points at. -/
def liveIsActive (s : JMState) : Prop :=
  ∀ j ∈ s.jobs, j.done = false → j.cancel = false → s.active = some j.id

/-! ## tts_engine/app.py: activate_model -/

/-- EngineConfig (config.py), with paths as strings. -/
structure EngineConfig where
  token : List Char
  host : List Char
  port : Nat
  data_dir : List Char
  active_model_id : List Char
  engine_version : List Char
  synth_backend : List Char
  qwen_model_name : List Char
  qwen_device_map : List Char
  qwen_dtype : List Char
  qwen_attn_implementation : List Char
  qwen_default_speaker : List Char
  kyutai_model_name : List Char
  kyutai_voice_prompt : List Char
  kyutai_sample_rate : Nat
  warmup_on_startup : Bool
  warmup_text : List Char
  warmup_language : List Char
deriving DecidableEq

/-- ActivateModelRequest after validation.  The qwen fields match the
schemas.py in the sources; the kyutai fields are read by activate_model in
app.py and listed by the spec but missing from the provided schemas.py
snapshot, so they are modelled from the spec alongside. -/
structure ActivateModelRequest where
  synth_backend : Option (List Char) := none
  active_model_id : Option (List Char) := none
  qwen_model_name : Option (List Char) := none
  qwen_device_map : Option (List Char) := none
  qwen_dtype : Option (List Char) := none
  qwen_attn_implementation : Option (List Char) := none
  qwen_default_speaker : Option (List Char) := none
  kyutai_model_name : Option (List Char) := none
  kyutai_voice_prompt : Option (List Char) := none
  kyutai_sample_rate : Option Nat := none
  warmup_wait : Bool := true
  warmup_force : Bool := true
  reason : Option (List Char) := none
deriving DecidableEq

/-- app.py _coalesce_str: keep the stripped candidate when non-empty,
otherwise the fallback. -/
def _coalesce_str (candidate : Option (List Char)) (fallback : List Char) :
    List Char :=
  match candidate with
  | none => fallback
  | some c =>
    let normalized := pyStrip c
    if normalized = [] then fallback else normalized

/-- Python request.synth_backend or config.synth_backend: the validated
field is either None or a non-empty normalized string, and the or-operator
falls back on None or an empty string. -/
def pyOrStr (candidate : Option (List Char)) (fallback : List Char) : List Char :=
  match candidate with
  | none => fallback
  | some c => if c = [] then fallback else c

/-- dataclasses.replace(engine_config, ...) as performed by activate_model:
overlay the request fields onto the current config. -/
def next_config (cfg : EngineConfig) (req : ActivateModelRequest) : EngineConfig :=
  { cfg with
    synth_backend := pyOrStr req.synth_backend cfg.synth_backend
    active_model_id := _coalesce_str req.active_model_id cfg.active_model_id
    qwen_model_name := _coalesce_str req.qwen_model_name cfg.qwen_model_name
    qwen_device_map := _coalesce_str req.qwen_device_map cfg.qwen_device_map
    qwen_dtype := _coalesce_str req.qwen_dtype cfg.qwen_dtype
    qwen_attn_implementation :=
      _coalesce_str req.qwen_attn_implementation cfg.qwen_attn_implementation
    qwen_default_speaker :=
      _coalesce_str req.qwen_default_speaker cfg.qwen_default_speaker
    kyutai_model_name := _coalesce_str req.kyutai_model_name cfg.kyutai_model_name
    kyutai_voice_prompt :=
      _coalesce_str req.kyutai_voice_prompt cfg.kyutai_voice_prompt
    kyutai_sample_rate :=
      match req.kyutai_sample_rate with
      | some n => n
      | none => cfg.kyutai_sample_rate }

/-- Synthesizer handle, identified by its reported backend name. -/
structure Synthesizer where
  backend : List Char
deriving DecidableEq

/-- VoiceStore handle as constructed by app.py: VoiceStore(data_dir, model_id). -/
structure VoiceStoreRef where
  data_dir : List Char
  tts_model_id : List Char
deriving DecidableEq

/-- JobManager handle as constructed by app.py: JobManager(synthesizer). -/
structure JobManagerRef where
  synthesizer : Synthesizer
deriving DecidableEq

/-- The five nonlocal runtime bindings the activate_model handler replaces:
engine_config, synthesizer, runtime_model_id, voice_store and jobs. -/
structure RuntimeState where
  config : EngineConfig
  synthesizer : Synthesizer
  runtime_model_id : List Char
  voice_store : VoiceStoreRef
  jobs : JobManagerRef
deriving DecidableEq

/-- app.py _resolve_runtime_model_id. -/
def _resolve_runtime_model_id (config : EngineConfig) (backend : List Char) :
    List Char :=
  if backend = "qwen_custom_voice".toList then config.qwen_model_name
  else if backend = "kyutai_pocket_tts".toList then config.kyutai_model_name
  else config.active_model_id

/-- app.py activate_model under the runtime lock.  hasActiveJob is the
value of jobs.has_active_job(); create is create_synthesizer (run in a
worker thread), returning an error when construction raises.  The result
pairs the HTTP outcome with the runtime bindings after the request: on
JOB_IN_PROGRESS or MODEL_NOT_READY nothing has been assigned yet, on
success all five bindings are replaced together. -/
def activate_model (rt : RuntimeState) (req : ActivateModelRequest)
    (hasActiveJob : Bool)
    (create : EngineConfig → Except (List Char) Synthesizer) :
    Except ErrorOut Unit × RuntimeState :=
  if hasActiveJob then (.error ⟨409, "JOB_IN_PROGRESS".toList⟩, rt)
  else
    let cfg := next_config rt.config req
    match create cfg with
    | .error _ => (.error ⟨409, "MODEL_NOT_READY".toList⟩, rt)
    | .ok synth =>
      let model_id := _resolve_runtime_model_id cfg synth.backend
      (.ok (),
        { config := cfg
          synthesizer := synth
          runtime_model_id := model_id
          voice_store := ⟨cfg.data_dir, model_id⟩
          jobs := ⟨synth⟩ })

/-- Sample engine configuration for concrete evaluations. -/
def sampleConfig : EngineConfig :=
  { token := "t".toList
    host := "127.0.0.1".toList
    port := 8765
    data_dir := "data".toList
    active_model_id := "qwen3-tts-12hz-0.6b-base".toList
    engine_version := "0.1.0".toList
    synth_backend := "auto".toList
    qwen_model_name := "Qwen/Qwen3-TTS-12Hz-0.6B-CustomVoice".toList
    qwen_device_map := "cuda:0".toList
    qwen_dtype := "bfloat16".toList
    qwen_attn_implementation := "flash_attention_2".toList
    qwen_default_speaker := "Ryan".toList
    kyutai_model_name := "Verylicious/pocket-tts-ungated".toList
    kyutai_voice_prompt := "alba".toList
    kyutai_sample_rate := 24000
    warmup_on_startup := true
    warmup_text := "Engine warmup sentence.".toList
    warmup_language := "auto".toList }

/-- Sample runtime bindings for concrete evaluations. -/
def sampleRuntime : RuntimeState :=
  { config := sampleConfig
    synthesizer := ⟨"mock".toList⟩
    runtime_model_id := "qwen3-tts-12hz-0.6b-base".toList
    voice_store := ⟨"data".toList, "qwen3-tts-12hz-0.6b-base".toList⟩
    jobs := ⟨⟨"mock".toList⟩⟩ }

/-- Sample activation request for concrete evaluations. -/
def sampleRequest : ActivateModelRequest :=
  { synth_backend := some "qwen".toList }

/-! ## tts_engine/chunking.py -/

/-- _SENTENCE_BOUNDARY_CHARS of chunking.py, including the CJK stops. -/
def isSentenceBoundary (c : Char) : Bool :=
  c = '.' || c = '!' || c = '?' || c = ';' || c = ':' || c = '\n' ||
  c = '。' || c = '！' || c = '？'

/-- While loop shared by the scanners: advance the cursor over whitespace
while it is below the bound (text length, or the span end in
_split_span_by_chars). -/
def skipSpacesF (text : List Char) (bound : Nat) : Nat → Nat → Nat
  | 0, cursor => cursor
  | fuel + 1, cursor =>
    if cursor < bound ∧ pyIsSpace (text.getD cursor ' ') then
      skipSpacesF text bound fuel (cursor + 1)
    else cursor

/-- Inner while loop of _extract_sentence_spans: absorb a run of additional
boundary characters after a sentence end. -/
def absorbBoundariesF (text : List Char) : Nat → Nat → Nat
  | 0, e => e
  | fuel + 1, e =>
    if e < text.length ∧ isSentenceBoundary (text.getD e ' ') then
      absorbBoundariesF text fuel (e + 1)
    else e

/-- Scanning loop of _extract_sentence_spans: advance until the character
just consumed is a boundary (then absorb the following boundary run), or
the end of the text. -/
def findSentenceEndF (text : List Char) : Nat → Nat → Nat
  | 0, e => e
  | fuel + 1, e =>
    if e < text.length then
      if isSentenceBoundary (text.getD e ' ') then
        absorbBoundariesF text (text.length + 1) (e + 1)
      else findSentenceEndF text fuel (e + 1)
    else e

/-- Outer loop of _extract_sentence_spans: skip whitespace, scan one
sentence, strip it, and record the absolute offsets of the trimmed segment
(raw.find(trimmed) is non-negative here because the trimmed segment occurs
in the raw one; toNat casts that Python int back to an index). -/
def extractSpansF (text : List Char) : Nat → Nat → List (Nat × Nat)
  | 0, _ => []
  | fuel + 1, cursor =>
    if cursor < text.length then
      let c := skipSpacesF text text.length (text.length + 1) cursor
      if c < text.length then
        let e := findSentenceEndF text (text.length + 1) c
        let raw := pySlice text c e
        let trimmed := pyStrip raw
        if trimmed = [] then extractSpansF text fuel e
        else
          let rel := (pyFind raw trimmed).toNat
          (c + rel, c + rel + trimmed.length) :: extractSpansF text fuel e
      else []
    else []

/-- chunking.py _extract_sentence_spans. -/
def _extract_sentence_spans (text : List Char) : List (Nat × Nat) :=
  extractSpansF text (text.length + 1) 0

/-- Cut position of one _split_span_by_chars iteration: the hard limit
(cursor + max_chars capped at the span end), moved back to the last space
strictly after the cursor when the hard limit falls short of the span end. -/
def pieceEndAt (text : List Char) (e maxc c : Nat) : Nat :=
  let hard := min (c + maxc) e
  if hard < e then
    let split_at := pyRFindSpace text c hard
    if (c : Int) < split_at then split_at.toNat else hard
  else hard

/-- Loop of _split_span_by_chars: skip whitespace, cut at the character
limit or at the last space before it, strip the piece, record it with its
absolute offsets, and continue after the cut. -/
def splitSpanF (text : List Char) (e maxc : Nat) :
    Nat → Nat → List (List Char × Nat × Nat)
  | 0, _ => []
  | fuel + 1, cursor =>
    if cursor < e then
      let c := skipSpacesF text e (e + 1) cursor
      if c < e then
        let pieceEnd := pieceEndAt text e maxc c
        let raw := pySlice text c pieceEnd
        let trimmed := pyStrip raw
        if trimmed = [] then splitSpanF text e maxc fuel pieceEnd
        else
          let rel := (pyFind raw trimmed).toNat
          (trimmed, c + rel, c + rel + trimmed.length) ::
            splitSpanF text e maxc fuel pieceEnd
      else []
    else []

/-- chunking.py _split_span_by_chars. -/
def _split_span_by_chars (text : List Char) (start e maxc : Nat) :
    List (List Char × Nat × Nat) :=
  splitSpanF text e maxc (e + 1) start

/-- TextChunk of chunking.py. -/
structure TextChunk where
  chunk_index : Nat
  text : List Char
  start_char : Nat
  end_char : Nat
deriving DecidableEq

/-- Python " ".join(parts). -/
def joinSpace : List (List Char) → List Char
  | [] => []
  | [p] => p
  | p :: rest => p ++ ' ' :: joinSpace rest

/-- Mutable state of the grouping loop in split_text_into_chunks: the
emitted chunks plus the grouped_* accumulator variables. -/
structure ChunkGroupState where
  chunks : List TextChunk
  grouped_text_parts : List (List Char)
  grouped_start : Option Nat
  grouped_end : Nat
  grouped_chars : Nat
  grouped_sentences : Nat

/-- flush_group of split_text_into_chunks: emit the grouped sentences as a
chunk (unless the group is empty) and reset the accumulator. -/
def flush_group (st : ChunkGroupState) : ChunkGroupState :=
  match st.grouped_start with
  | none =>
    { st with
      grouped_text_parts := []
      grouped_start := none
      grouped_end := 0
      grouped_chars := 0
      grouped_sentences := 0 }
  | some gs =>
    if st.grouped_text_parts = [] then
      { st with
        grouped_text_parts := []
        grouped_start := none
        grouped_end := 0
        grouped_chars := 0
        grouped_sentences := 0 }
    else
      { chunks := st.chunks ++
          [⟨st.chunks.length, joinSpace st.grouped_text_parts, gs,
            st.grouped_end⟩]
        grouped_text_parts := []
        grouped_start := none
        grouped_end := 0
        grouped_chars := 0
        grouped_sentences := 0 }

/-- Appending loop of the oversized-sentence branch: each piece becomes a
chunk indexed by the current chunk count. -/
def appendPieces (chunks : List TextChunk) :
    List (List Char × Nat × Nat) → List TextChunk
  | [] => chunks
  | (t, s, e) :: rest => appendPieces (chunks ++ [⟨chunks.length, t, s, e⟩]) rest

/-- Sentence limit of one grouping iteration: clamped to
FIRST_CHUNK_MAX_SENTENCES = 1 while the first chunk is being built, floored
at 1. -/
def activeSentenceLimitAt (maxSentences : Nat) (building_first_chunk : Bool) :
    Nat :=
  let limit := if building_first_chunk then min maxSentences 1 else maxSentences
  if limit < 1 then 1 else limit

/-- Character limit of one grouping iteration: clamped to
FIRST_CHUNK_MAX_CHARS = 200 while the first chunk is being built, floored at
1 when below 100. -/
def activeCharLimitAt (maxChars : Nat) (building_first_chunk : Bool) : Nat :=
  let limit := if building_first_chunk then min maxChars 200 else maxChars
  if limit < 100 then max 1 limit else limit

/-- Body of the for-loop of split_text_into_chunks for one sentence span. -/
def processSpan (text : List Char) (maxChars maxSentences : Nat)
    (st : ChunkGroupState) (span : Nat × Nat) : ChunkGroupState :=
  let sentence_text := pyStrip (pySlice text span.1 span.2)
  if sentence_text = [] then st
  else
    let building_first_chunk := st.chunks.length == 0
    let active_sentence_limit := activeSentenceLimitAt maxSentences building_first_chunk
    let active_char_limit := activeCharLimitAt maxChars building_first_chunk
    let sentence_len := sentence_text.length
    if active_char_limit < sentence_len then
      let st := flush_group st
      let pieces := _split_span_by_chars text span.1 span.2 active_char_limit
      { st with chunks := appendPieces st.chunks pieces }
    else
      let projected_chars :=
        if st.grouped_chars = 0 then sentence_len
        else st.grouped_chars + 1 + sentence_len
      let st :=
        if active_sentence_limit ≤ st.grouped_sentences ∨
            (0 < st.grouped_sentences ∧ active_char_limit < projected_chars)
        then flush_group st
        else st
      { chunks := st.chunks
        grouped_text_parts := st.grouped_text_parts ++ [sentence_text]
        grouped_start :=
          match st.grouped_start with
          | none => some span.1
          | some gs => some gs
        grouped_end := span.2
        grouped_chars :=
          if 0 < st.grouped_chars then projected_chars else sentence_len
        grouped_sentences := st.grouped_sentences + 1 }

/-- chunking.py split_text_into_chunks: validate the limits, clamp them to
the first-chunk ceiling, extract the sentence spans, run the grouping loop
and flush the last group. -/
def split_text_into_chunks (text : List Char)
    (max_chars max_sentences_per_chunk : Nat) :
    Except (List Char) (List TextChunk) :=
  if max_chars < 1 then .error "max_chars must be >= 1".toList
  else if max_sentences_per_chunk < 1 then
    .error "max_sentences_per_chunk must be >= 1".toList
  else
    let maxChars := min max_chars 200
    let maxSentences := min max_sentences_per_chunk 1
    let spans := _extract_sentence_spans text
    let final := spans.foldl (processSpan text maxChars maxSentences)
      ⟨[], [], none, 0, 0, 0⟩
    .ok (flush_group final).chunks

/-- Chained ranges: every range starts at or after the running lower bound,
is non-degenerate, and the final cursor stays at or below the upper bound. -/
def RChain : Nat → List (Nat × Nat) → Nat → Prop
  | lo, [], hi => lo ≤ hi
  | lo, (s, e) :: rest, hi => lo ≤ s ∧ s < e ∧ RChain e rest hi

/-- Chunk quality asserted by the chunker claim: trimmed text is non-empty
and the text length respects the clamped character limit. -/
def GoodChunk (maxC : Nat) (c : TextChunk) : Prop :=
  pyStrip c.text ≠ [] ∧ c.text.length ≤ maxC

/-- Range projection of a chunk list. -/
def chunkRanges (l : List TextChunk) : List (Nat × Nat) :=
  l.map fun c => (c.start_char, c.end_char)

/-- Range projection of a piece list. -/
def pieceRanges (l : List (List Char × Nat × Nat)) : List (Nat × Nat) :=
  l.map fun p => (p.2.1, p.2.2)

/-- Invariant of the grouping loop before processing the spans that lie at
or beyond pos: all emitted chunks are good and chained below the group (or
below pos when no group is open), and an open group holds exactly one
trimmed non-empty sentence within its recorded bounds. -/
def GroupInv (maxC : Nat) (st : ChunkGroupState) (pos : Nat) : Prop :=
  (∀ c ∈ st.chunks, GoodChunk maxC c) ∧
  ((st.grouped_start = none ∧ RChain 0 (chunkRanges st.chunks) pos ∧
      st.grouped_text_parts = [] ∧ st.grouped_chars = 0 ∧
      st.grouped_sentences = 0) ∨
    (∃ gs p, st.grouped_start = some gs ∧
      RChain 0 (chunkRanges st.chunks) gs ∧
      gs < st.grouped_end ∧ st.grouped_end ≤ pos ∧
      st.grouped_sentences = 1 ∧
      st.grouped_text_parts = [p] ∧ pyStrip p = p ∧ p ≠ [] ∧
      p.length ≤ maxC))

/-! ## Theorems -/

/-- Behaviour of halveLoop: with enough fuel the factors are all 2, the
product of factors and residual reconstructs the input, the residual stays
positive and at most 2, and the residual either kept the input value or
ended strictly above 1. -/
theorem halveLoop_spec : ∀ (fuel : Nat) (r : ℚ), 0 < r → r ≤ 2 ^ fuel →
    (halveLoop fuel r).1.prod * (halveLoop fuel r).2 = r ∧
    0 < (halveLoop fuel r).2 ∧ (halveLoop fuel r).2 ≤ 2 ∧
    (∀ x ∈ (halveLoop fuel r).1, x = 2) ∧
    (r ≤ (halveLoop fuel r).2 ∨ 1 < (halveLoop fuel r).2) := by
  intro fuel
  induction fuel with
  | zero =>
    intro r hr hb
    simp only [pow_zero] at hb
    have h2 : ¬ (2 < r) := by linarith
    simp only [halveLoop, h2, if_false, List.prod_nil, one_mul]
    exact ⟨trivial, hr, by linarith, by simp, Or.inl le_rfl⟩
  | succ n ih =>
    intro r hr hb
    by_cases h2 : 2 < r
    · have hhalf : r / 2 ≤ 2 ^ n := by
        rw [div_le_iff (by norm_num : (0:ℚ) < 2)]
        calc r ≤ 2 ^ (n + 1) := hb
        _ = 2 ^ n * 2 := by rw [pow_succ]
      have hrec := ih (r / 2) (by positivity) hhalf
      simp only [halveLoop, h2, if_true, List.prod_cons, List.mem_cons]
      refine ⟨?_, hrec.2.1, hrec.2.2.1, ?_, ?_⟩
      · rw [mul_assoc, hrec.1]; ring
      · rintro x (rfl | hx)
        · rfl
        · exact hrec.2.2.2.1 x hx
      · rcases hrec.2.2.2.2 with hle | hgt
        · exact Or.inr (by linarith)
        · exact Or.inr hgt
    · simp only [halveLoop, h2, if_false, List.prod_nil, one_mul]
      exact ⟨trivial, hr, by linarith, by simp, Or.inl le_rfl⟩

/-- Behaviour of doubleLoop: with enough fuel the factors are all 1/2, the
product of factors and residual reconstructs the input, and the residual
ends at least 1/2 while either keeping the input value or ending below 1. -/
theorem doubleLoop_spec : ∀ (fuel : Nat) (r : ℚ), 0 < r → 1 / 2 ^ fuel ≤ r →
    (doubleLoop fuel r).1.prod * (doubleLoop fuel r).2 = r ∧
    1 / 2 ≤ (doubleLoop fuel r).2 ∧
    ((doubleLoop fuel r).2 ≤ r ∨ (doubleLoop fuel r).2 < 1) ∧
    (∀ x ∈ (doubleLoop fuel r).1, x = 1 / 2) := by
  intro fuel
  induction fuel with
  | zero =>
    intro r hr hb
    simp only [pow_zero] at hb
    have hlt : ¬ (r < 1 / 2) := by linarith
    simp only [doubleLoop, hlt, if_false, List.prod_nil, one_mul]
    exact ⟨trivial, by linarith, Or.inl le_rfl, by simp⟩
  | succ n ih =>
    intro r hr hb
    by_cases hlt : r < 1 / 2
    · have hdiv : r / (1 / 2) = 2 * r := by
        rw [div_eq_mul_inv]
        norm_num
        ring
      have hfuel : 1 / 2 ^ n ≤ r / (1 / 2) := by
        rw [hdiv, pow_succ] at *
        have h2n : (0:ℚ) < 2 ^ n := by positivity
        rw [div_le_iff h2n]
        rw [div_le_iff (by positivity : (0:ℚ) < 2 ^ n * 2)] at hb
        linarith
      have hrec := ih (r / (1 / 2)) (by rw [hdiv]; positivity) hfuel
      simp only [doubleLoop, hlt, if_true, List.prod_cons, List.mem_cons]
      refine ⟨?_, hrec.2.1, ?_, ?_⟩
      · rw [mul_assoc, hrec.1, hdiv]; ring
      · rcases hrec.2.2.1 with hle | hsm
        · have hsmall : r / (1 / 2) < 1 := by rw [hdiv]; linarith
          exact Or.inr (lt_of_le_of_lt hle hsmall)
        · exact Or.inr hsm
      · rintro x (rfl | hx)
        · rfl
        · exact hrec.2.2.2 x hx
    · simp only [doubleLoop, hlt, if_false, List.prod_nil, one_mul]
      exact ⟨trivial, by linarith, Or.inl le_rfl, by simp⟩

/-- A positive rational is at most 2 to the power of its numerator. -/
theorem rat_le_two_pow_num (rate : ℚ) (hpos : 0 < rate) :
    rate ≤ 2 ^ rate.num.natAbs := by
  have hnum : (0 : ℤ) < rate.num := Rat.num_pos.mpr hpos
  have hden1 : (1:ℚ) ≤ (rate.den : ℚ) := by
    exact_mod_cast Nat.one_le_iff_ne_zero.mpr rate.den_nz
  have hle : rate ≤ (rate.num : ℚ) := by
    have h := div_le_self (by positivity : (0:ℚ) ≤ (rate.num : ℚ)) hden1
    rwa [Rat.num_div_den rate] at h
  have habs : ((rate.num.natAbs : ℚ)) = (rate.num : ℚ) := by
    rw [Int.cast_natAbs]
    exact_mod_cast abs_of_nonneg hnum.le
  have hpow : ((rate.num.natAbs : ℚ)) ≤ 2 ^ rate.num.natAbs := by
    exact_mod_cast (Nat.lt_two_pow rate.num.natAbs).le
  calc rate ≤ (rate.num : ℚ) := hle
  _ = (rate.num.natAbs : ℚ) := habs.symm
  _ ≤ 2 ^ rate.num.natAbs := hpow

/-- A positive rational is at least the inverse of 2 to the power of its
denominator. -/
theorem rat_inv_two_pow_den_le (rate : ℚ) (hpos : 0 < rate) :
    1 / 2 ^ rate.den ≤ rate := by
  have hnum : (1 : ℤ) ≤ rate.num := Rat.num_pos.mpr hpos
  have hdenpos : (0:ℚ) < (rate.den : ℚ) := by
    exact_mod_cast Nat.pos_of_ne_zero rate.den_nz
  have hdenpow : ((rate.den : ℚ)) ≤ 2 ^ rate.den := by
    exact_mod_cast (Nat.lt_two_pow rate.den).le
  have h1 : (1:ℚ) / 2 ^ rate.den ≤ 1 / (rate.den : ℚ) := by
    gcongr
  have hmul : rate * (rate.den : ℚ) = (rate.num : ℚ) := by
    have hden0 : ((rate.den : ℚ)) ≠ 0 := ne_of_gt hdenpos
    calc rate * (rate.den : ℚ)
        = ((rate.num : ℚ) / (rate.den : ℚ)) * (rate.den : ℚ) := by
          rw [Rat.num_div_den]
    _ = (rate.num : ℚ) := div_mul_cancel₀ _ hden0
  have h2 : (1:ℚ) / (rate.den : ℚ) ≤ rate := by
    rw [div_le_iff hdenpos, hmul]
    exact_mod_cast hnum
  linarith

/-- Claim C7: for every rate > 0 the tempo-factor decomposition of the
time-stretch step returns a non-empty list of factors, each within
[0.5, 2.0], whose product is exactly the rate. -/
theorem c7_decompose_tempo_factors_sound (rate : ℚ) (hpos : 0 < rate) :
    _decompose_tempo_factors rate ≠ [] ∧
    (∀ x ∈ _decompose_tempo_factors rate, 1 / 2 ≤ x ∧ x ≤ 2) ∧
    (_decompose_tempo_factors rate).prod = rate := by
  have hnle : ¬ (rate ≤ 0) := not_le.mpr hpos
  have hH := halveLoop_spec rate.num.natAbs rate hpos (rat_le_two_pow_num rate hpos)
  have hfuelD : 1 / 2 ^ rate.den ≤ (halveLoop rate.num.natAbs rate).2 := by
    rcases hH.2.2.2.2 with hle | hgt
    · exact le_trans (rat_inv_two_pow_den_le rate hpos) hle
    · have hone : (1:ℚ) / 2 ^ rate.den ≤ 1 := by
        rw [div_le_one (by positivity : (0:ℚ) < 2 ^ rate.den)]
        calc (1:ℚ) = 1 ^ rate.den := (one_pow _).symm
        _ ≤ 2 ^ rate.den := by gcongr <;> norm_num
      linarith
  have hD := doubleLoop_spec rate.den (halveLoop rate.num.natAbs rate).2
    hH.2.1 hfuelD
  simp only [_decompose_tempo_factors, hnle, if_false]
  refine ⟨by simp, ?_, ?_⟩
  · intro x hx
    simp only [List.mem_append, List.mem_singleton] at hx
    rcases hx with (hx1 | hx2) | rfl
    · have := hH.2.2.2.1 x hx1
      subst this
      norm_num
    · have := hD.2.2.2 x hx2
      subst this
      norm_num
    · refine ⟨hD.2.1, ?_⟩
      rcases hD.2.2.1 with hle | hsm
      · exact le_trans hle hH.2.2.1
      · linarith
  · rw [List.prod_append, List.prod_append, List.prod_singleton, mul_assoc,
      hD.1, hH.1]

/-- Witness for C7 at the concrete rate 3. -/
theorem c7_decompose_tempo_factors_sound_witness :
    0 < (3:ℚ) ∧
    (_decompose_tempo_factors 3 ≠ [] ∧
      (∀ x ∈ _decompose_tempo_factors 3, 1 / 2 ≤ x ∧ x ≤ 2) ∧
      (_decompose_tempo_factors 3).prod = 3) :=
  ⟨by norm_num, c7_decompose_tempo_factors_sound 3 (by norm_num)⟩

/-- Claim C9: on POST /v1/speak a voice_id that is JSON null or a string
that is empty after trimming is normalized to the default voice id "0"
rather than rejected. -/
theorem c9_voice_id_defaulting (s : List Char) (hblank : pyStrip s = []) :
    normalize_voice_id .none = .ok DEFAULT_VOICE_ID ∧
    normalize_voice_id (.str s) = .ok DEFAULT_VOICE_ID := by
  refine ⟨rfl, ?_⟩
  simp [normalize_voice_id, normalize_voice_str, hblank]

/-- Witness for C9 at the whitespace-only string. -/
theorem c9_voice_id_defaulting_witness :
    pyStrip "  ".toList = [] ∧
    (normalize_voice_id .none = .ok DEFAULT_VOICE_ID ∧
      normalize_voice_id (.str "  ".toList) = .ok DEFAULT_VOICE_ID) :=
  ⟨by decide, c9_voice_id_defaulting "  ".toList (by decide)⟩

/-- Counterexample for claim C5: the voice_id string abc is neither the
default id nor a valid UUID, yet POST /v1/speak rejects it with HTTP 400
INVALID_REQUEST (through the RequestValidationError handler), not with
HTTP 404 VOICE_NOT_FOUND as claimed. -/
theorem c5_counterexample :
    ("abc".toList ≠ DEFAULT_VOICE_ID ∧ pyUUIDValid "abc".toList = false) ∧
    speakVoiceIdOutcome (.str "abc".toList) (fun _ => true) (fun _ => true) ≠
      .error ⟨404, "VOICE_NOT_FOUND".toList⟩ ∧
    speakVoiceIdOutcome (.str "abc".toList) (fun _ => true) (fun _ => true) =
      .error ⟨400, "INVALID_REQUEST".toList⟩ := by
  decide

/-- Claim C5 as amended: a speak request whose voice_id string is, after
trimming, non-empty, not the literal default id and not a valid UUID fails
schema validation and is rejected with HTTP 400 INVALID_REQUEST. -/
theorem c5_malformed_voice_id_is_400 (v : List Char)
    (voiceExists supportsVoiceId : List Char → Bool)
    (hne : pyStrip v ≠ []) (hnd : pyStrip v ≠ DEFAULT_VOICE_ID)
    (huuid : pyUUIDValid (pyStrip v) = false) :
    speakVoiceIdOutcome (.str v) voiceExists supportsVoiceId =
      .error ⟨400, "INVALID_REQUEST".toList⟩ := by
  simp [speakVoiceIdOutcome, normalize_voice_id, normalize_voice_str, hne,
    hnd, huuid]

/-- Witness for the amended C5 at the concrete string abc. -/
theorem c5_malformed_voice_id_is_400_witness :
    (pyStrip "abc".toList ≠ [] ∧ pyStrip "abc".toList ≠ DEFAULT_VOICE_ID ∧
      pyUUIDValid (pyStrip "abc".toList) = false) ∧
    speakVoiceIdOutcome (.str "abc".toList) (fun _ => false) (fun _ => false) =
      .error ⟨400, "INVALID_REQUEST".toList⟩ :=
  ⟨⟨by decide, by decide, by decide⟩,
    c5_malformed_voice_id_is_400 "abc".toList (fun _ => false) (fun _ => false)
      (by decide) (by decide) (by decide)⟩

/-- Claim C2: request validation for POST /v1/models/activate allegedly
accepts all four of auto, qwen, kyutai, mock.  The validator in schemas.py
only knows auto, qwen and mock: the value kyutai is rejected as a validation
failure even though the create_synthesizer factory in synth.py accepts the
very same backend string, so the kyutai backend cannot be selected through
the endpoint at all. -/
theorem c2_kyutai_rejected_by_validator :
    validate_synth_backend (some "kyutai".toList) =
      .error "synth_backend must be one of: auto, qwen, mock".toList ∧
    validate_synth_backend (some "auto".toList) = .ok (some "auto".toList) ∧
    validate_synth_backend (some "qwen".toList) = .ok (some "qwen".toList) ∧
    validate_synth_backend (some "mock".toList) = .ok (some "mock".toList) ∧
    create_synthesizer_backend_choice "kyutai".toList = .ok "kyutai".toList := by
  decide

/-- Claim C8: audio post-processing is the identity at unit settings: for
rate = pitch = volume = 1.0 the fast path returns the input SynthesizedAudio
itself, so PCM bytes, sample rate and channel count are unchanged. -/
theorem c8_playback_identity_at_unit_settings
    (timeStretch : List ℚ → ℚ → Nat → List ℚ) (audio : SynthesizedAudio) :
    _apply_playback_controls timeStretch audio 1 1 1 = audio := by
  simp [_apply_playback_controls]

/-- Claim C10: an empty PCM buffer is returned untouched by audio
post-processing for every combination of rate, pitch and volume: either the
unit fast path fires, or the decoded sample array is empty and the
size-zero check returns the input before any stretching or scaling. -/
theorem c10_empty_buffer_untouched
    (timeStretch : List ℚ → ℚ → Nat → List ℚ) (audio : SynthesizedAudio)
    (rate pitch volume : ℚ) (hempty : audio.pcm_s16le = []) :
    _apply_playback_controls timeStretch audio rate pitch volume = audio := by
  by_cases hfast : rate = 1 ∧ pitch = 1 ∧ volume = 1
  · simp [_apply_playback_controls, hfast]
  · simp [_apply_playback_controls, hfast, hempty, bytesToSamples]

/-- Witness for C10 on a concrete empty audio buffer at non-unit rate. -/
theorem c10_empty_buffer_untouched_witness :
    (⟨[], 24000, 1⟩ : SynthesizedAudio).pcm_s16le = [] ∧
    _apply_playback_controls (fun s _ _ => s) ⟨[], 24000, 1⟩ 2 1 1 =
      ⟨[], 24000, 1⟩ :=
  ⟨rfl, c10_empty_buffer_untouched (fun s _ _ => s) ⟨[], 24000, 1⟩ 2 1 1 rfl⟩

/-- Every run of the _run_job loop ends in exactly one terminal event: the
produced event list is a prefix of non-terminal events followed by a single
terminal event. -/
theorem runLoopEvents_terminal : ∀ (steps : List ChunkStep) (seq : Nat) (fc : Bool),
    ∃ pre last, runLoopEvents steps seq fc = pre ++ [last] ∧
      isTerminalEvent last = true ∧ ∀ e ∈ pre, isTerminalEvent e = false := by
  intro steps
  induction steps with
  | nil =>
    intro seq fc
    refine ⟨[], if fc then .jobCanceled else .jobDone, rfl, ?_, by simp⟩
    cases fc <;> rfl
  | cons step rest ih =>
    intro seq fc
    cases step with
    | cancelAtLoopTop => exact ⟨[], .jobCanceled, rfl, rfl, by simp⟩
    | abortInSynth => exact ⟨[], .jobCanceled, rfl, rfl, by simp⟩
    | errorInSynth => exact ⟨[], .jobError, rfl, rfl, by simp⟩
    | cancelAfterSynth => exact ⟨[], .jobCanceled, rfl, rfl, by simp⟩
    | cancelAfterControls => exact ⟨[], .jobCanceled, rfl, rfl, by simp⟩
    | emit =>
      obtain ⟨pre, last, heq, hterm, hpre⟩ := ih (seq + 1) fc
      refine ⟨.audioChunk seq :: pre, last, ?_, hterm, ?_⟩
      · simp [runLoopEvents, heq]
      · intro e he
        rcases List.mem_cons.mp he with rfl | hmem
        · rfl
        · exact hpre e hmem
    | emitThenAbort =>
      refine ⟨[.audioChunk seq], .jobCanceled, rfl, rfl, ?_⟩
      intro e he
      rcases List.mem_cons.mp he with rfl | hmem
      · rfl
      · simp at hmem

/-- Claim C3: for every job whose done signal has fired (exactly the jobs
whose worker reached its finally block), the event history is non-empty,
its last element is a terminal event, no event follows the terminal event,
and the history contains exactly one terminal event. -/
theorem c3_history_single_terminal (steps : List ChunkStep) (finalCancel : Bool) :
    ∃ pre last, jobHistory steps finalCancel = pre ++ [last] ∧
      isTerminalEvent last = true ∧
      (∀ e ∈ pre, isTerminalEvent e = false) ∧
      (jobHistory steps finalCancel).filter (fun e => isTerminalEvent e) = [last] := by
  obtain ⟨pre, last, heq, hterm, hpre⟩ := runLoopEvents_terminal steps 1 finalCancel
  have hpfx : ∀ e ∈ JobEvent.started :: pre, isTerminalEvent e = false := by
    intro e he
    rcases List.mem_cons.mp he with rfl | hmem
    · rfl
    · exact hpre e hmem
  refine ⟨.started :: pre, last, by simp [jobHistory, heq], hterm, hpfx, ?_⟩
  have hsplit : jobHistory steps finalCancel = (JobEvent.started :: pre) ++ [last] := by
    simp [jobHistory, heq]
  rw [hsplit, List.filter_append]
  have h1 : (JobEvent.started :: pre).filter (fun e => isTerminalEvent e) = [] := by
    simp only [List.filter_eq_nil_iff]
    intro a ha
    simp [hpfx a ha]
  rw [h1]
  simp [hterm]

/-- Every JobManager transition preserves the invariant that a job with
both signals unfired is the active job: start_job cancels the previously
live job before installing the fresh live one, cancel_job and the worker
finally block only clear liveness, and pruning only removes done jobs. -/
theorem liveIsActive_step {s t : JMState} (hst : JMStep s t)
    (hs : liveIsActive s) : liveIsActive t := by
  cases hst with
  | start =>
    intro j hj hd hc
    cases hact : s.active with
    | none =>
      have hjobs : (start_job s).jobs = s.jobs ++ [⟨s.nextId, false, false⟩] := by
        simp [start_job, hact]
      rw [hjobs] at hj
      rcases List.mem_append.mp hj with hmem | hnew
      · have hlive := hs j hmem hd hc
        rw [hact] at hlive
        cases hlive
      · have hj' : j = ⟨s.nextId, false, false⟩ := by simpa using hnew
        subst hj'
        simp [start_job]
    | some a =>
      have hjobs : (start_job s).jobs =
          (s.jobs.map (fun j =>
            if j.id = a ∧ j.done = false then { j with cancel := true } else j)) ++
            [⟨s.nextId, false, false⟩] := by
        simp [start_job, hact]
      rw [hjobs] at hj
      rcases List.mem_append.mp hj with hmem | hnew
      · obtain ⟨j0, hj0, hj0eq⟩ := List.mem_map.mp hmem
        by_cases hcond : j0.id = a ∧ j0.done = false
        · rw [if_pos hcond] at hj0eq
          rw [← hj0eq] at hc
          simp at hc
        · rw [if_neg hcond] at hj0eq
          subst hj0eq
          have hlive := hs j0 hj0 hd hc
          rw [hact] at hlive
          have ha : j0.id = a := by
            injection hlive with h
            exact h.symm
          exact absurd ⟨ha, hd⟩ hcond
      · have hj' : j = ⟨s.nextId, false, false⟩ := by simpa using hnew
        subst hj'
        simp [start_job]
  | cancel id =>
    intro j hj hd hc
    simp only [cancel_job] at hj
    obtain ⟨j0, hj0, hj0eq⟩ := List.mem_map.mp hj
    by_cases hcond : j0.id = id
    · rw [if_pos hcond] at hj0eq
      rw [← hj0eq] at hc
      simp at hc
    · rw [if_neg hcond] at hj0eq
      subst hj0eq
      exact hs j0 hj0 hd hc
  | finish id =>
    intro j hj hd hc
    simp only [finish_job] at hj
    obtain ⟨j0, hj0, hj0eq⟩ := List.mem_map.mp hj
    by_cases hcond : j0.id = id
    · rw [if_pos hcond] at hj0eq
      rw [← hj0eq] at hd
      simp at hd
    · rw [if_neg hcond] at hj0eq
      subst hj0eq
      have hact := hs j0 hj0 hd hc
      have hne : ¬ (s.active = some id) := by
        rw [hact]
        intro hcc
        injection hcc with h
        exact hcond h
      simp [finish_job, hne, hact]
      exact hcond
  | prune keep hkeep =>
    intro j hj hd hc
    exact hs j (List.mem_of_mem_filter hj) hd hc

/-- The live-job invariant holds in every reachable JobManager state. -/
theorem liveIsActive_reachable {s : JMState} (h : JMReachable s) :
    liveIsActive s := by
  induction h with
  | init =>
    intro j hj _ _
    simp [JMInit] at hj
  | step _ hstep ih => exact liveIsActive_step hstep ih

/-- Counterexample for claim C1 as stated: after two start_job calls from a
fresh manager (the second one fired while the first job had not yet reached
a cancel check, which start_job permits because it does not wait), the job
map holds two jobs with distinct ids whose done signals are both unfired,
so it is false that of every pair of distinct jobs at least one has its
done signal set. -/
theorem c1_counterexample :
    ¬ (∀ s : JMState, JMReachable s → ∀ j₁ ∈ s.jobs, ∀ j₂ ∈ s.jobs,
        j₁.id ≠ j₂.id → j₁.done = true ∨ j₂.done = true) := by
  intro hclaim
  have hreach : JMReachable (start_job (start_job JMInit)) :=
    JMReachable.step (JMReachable.step JMReachable.init (JMStep.start _))
      (JMStep.start _)
  have h := hclaim _ hreach ⟨0, true, false⟩ (by decide) ⟨1, false, false⟩
    (by decide) (by decide)
  exact absurd h (by decide)

/-- Claim C1 as amended: at every reachable instant at most one job is
fully live, in the sense that for every pair of jobs with distinct ids at
least one of the two has its done signal or its cancel signal set (the
prior job keeps an unfired done signal right after start_job, but its
cancel signal has been fired). -/
theorem c1_at_most_one_fully_live (s : JMState) (hs : JMReachable s) :
    ∀ j₁ ∈ s.jobs, ∀ j₂ ∈ s.jobs, j₁.id ≠ j₂.id →
      (j₁.done = true ∨ j₁.cancel = true) ∨
        (j₂.done = true ∨ j₂.cancel = true) := by
  intro j₁ h₁ j₂ h₂ hne
  by_contra hcon
  push_neg at hcon
  obtain ⟨⟨hd₁, hc₁⟩, hd₂, hc₂⟩ := hcon
  have inv := liveIsActive_reachable hs
  have e₁ := inv j₁ h₁ (by simpa using hd₁) (by simpa using hc₁)
  have e₂ := inv j₂ h₂ (by simpa using hd₂) (by simpa using hc₂)
  rw [e₁] at e₂
  injection e₂ with h
  exact hne h

/-- Witness for the amended C1 on the reachable two-job state produced by
two start_job calls. -/
theorem c1_at_most_one_fully_live_witness :
    JMReachable (start_job (start_job JMInit)) ∧
    (((⟨0, true, false⟩ : JobRec).done = true ∨
        (⟨0, true, false⟩ : JobRec).cancel = true) ∨
      ((⟨1, false, false⟩ : JobRec).done = true ∨
        (⟨1, false, false⟩ : JobRec).cancel = true)) :=
  ⟨JMReachable.step (JMReachable.step JMReachable.init (JMStep.start _))
      (JMStep.start _),
    c1_at_most_one_fully_live (start_job (start_job JMInit))
      (JMReachable.step (JMReachable.step JMReachable.init (JMStep.start _))
        (JMStep.start _))
      ⟨0, true, false⟩ (by decide) ⟨1, false, false⟩ (by decide) (by decide)⟩

/-- Claim C6: when create_synthesizer raises during POST /v1/models/activate
(and no job is active), the handler answers 409 MODEL_NOT_READY and the
runtime bindings - config, synthesizer, reported model id, voice store and
Job Manager - are exactly what they were before the request; they are
assigned only after a successful construction, and then all together. -/
theorem c6_activate_model_failure_atomic (rt : RuntimeState)
    (req : ActivateModelRequest) (msg : List Char)
    (create : EngineConfig → Except (List Char) Synthesizer)
    (hfail : create (next_config rt.config req) = .error msg) :
    activate_model rt req false create =
      (.error ⟨409, "MODEL_NOT_READY".toList⟩, rt) := by
  simp [activate_model, hfail]

/-- Witness for C6 with a concrete runtime and an always-failing factory. -/
theorem c6_activate_model_failure_atomic_witness :
    (fun _ : EngineConfig =>
        (Except.error "boom".toList : Except (List Char) Synthesizer))
      (next_config sampleRuntime.config sampleRequest) = .error "boom".toList ∧
    activate_model sampleRuntime sampleRequest false
        (fun _ => .error "boom".toList) =
      (.error ⟨409, "MODEL_NOT_READY".toList⟩, sampleRuntime) :=
  ⟨rfl, c6_activate_model_failure_atomic sampleRuntime sampleRequest
    "boom".toList (fun _ => .error "boom".toList) rfl⟩

/-- Stripping never lengthens a string. -/
theorem pyStrip_length_le (l : List Char) : (pyStrip l).length ≤ l.length := by
  unfold pyStrip
  have h1 : ((l.dropWhile pyIsSpace).reverse.dropWhile pyIsSpace).length ≤
      (l.dropWhile pyIsSpace).reverse.length :=
    (List.dropWhile_sublist _).length_le
  have h2 : (l.dropWhile pyIsSpace).length ≤ l.length :=
    (List.dropWhile_sublist _).length_le
  simp only [List.length_reverse] at *
  omega

/-- The head surviving dropWhile fails the predicate. -/
theorem dropWhile_head_not (p : Char → Bool) :
    ∀ (l : List Char) (h : Char) (t : List Char),
      l.dropWhile p = h :: t → p h = false := by
  intro l
  induction l with
  | nil =>
    intro h t hc
    simp at hc
  | cons a l ih =>
    intro h t hc
    by_cases hp : p a
    · rw [List.dropWhile_cons_of_pos hp] at hc
      exact ih h t hc
    · rw [List.dropWhile_cons_of_neg hp] at hc
      cases hc
      simpa using hp

/-- dropWhile is idempotent. -/
theorem dropWhile_dropWhile (p : Char → Bool) (l : List Char) :
    (l.dropWhile p).dropWhile p = l.dropWhile p := by
  cases hd : l.dropWhile p with
  | nil => simp
  | cons h t =>
    rw [List.dropWhile_cons_of_neg]
    simp [dropWhile_head_not p l h t hd]

/-- Python strip is idempotent: stripping a stripped string is a no-op. -/
theorem pyStrip_idem (l : List Char) : pyStrip (pyStrip l) = pyStrip l := by
  unfold pyStrip
  have hstep1 : (((l.dropWhile pyIsSpace).reverse.dropWhile pyIsSpace).reverse).dropWhile pyIsSpace =
      ((l.dropWhile pyIsSpace).reverse.dropWhile pyIsSpace).reverse := by
    cases hur : ((l.dropWhile pyIsSpace).reverse.dropWhile pyIsSpace).reverse with
    | nil => simp
    | cons h t =>
      have hsuffix : (l.dropWhile pyIsSpace).reverse.dropWhile pyIsSpace <:+
          (l.dropWhile pyIsSpace).reverse := List.dropWhile_suffix _
      have hpfx : ((l.dropWhile pyIsSpace).reverse.dropWhile pyIsSpace).reverse <+:
          l.dropWhile pyIsSpace := by
        have h := List.reverse_prefix.mpr hsuffix
        rwa [List.reverse_reverse] at h
      obtain ⟨rest, hrest⟩ := hpfx
      rw [hur] at hrest
      have hph : pyIsSpace h = false :=
        dropWhile_head_not pyIsSpace l h (t ++ rest) (by rw [← hrest]; simp)
      exact List.dropWhile_cons_of_neg (by simp [hph])
  rw [hstep1, List.reverse_reverse, dropWhile_dropWhile]

/-- Length of a Python slice within bounds. -/
theorem pySlice_length (l : List Char) (c e : Nat) (h2 : e ≤ l.length) :
    (pySlice l c e).length = e - c := by
  simp [pySlice, List.length_take]
  omega

/-- A successful find-loop result is a genuine occurrence at or after the
starting index. -/
theorem pyFindAux_some (hay pat : List Char) :
    ∀ (fuel i k : Nat), pyFindAux hay pat fuel i = some k →
      pat.isPrefixOf (hay.drop k) = true ∧ i ≤ k ∧ k ≤ hay.length := by
  intro fuel
  induction fuel with
  | zero =>
    intro i k h
    simp [pyFindAux] at h
  | succ fuel ih =>
    intro i k h
    simp only [pyFindAux] at h
    split at h
    · split at h
      · rename_i hle hpre
        cases h
        exact ⟨hpre, le_rfl, hle⟩
      · obtain ⟨hp, hik, hk⟩ := ih (i + 1) k h
        exact ⟨hp, by omega, hk⟩
    · cases h

/-- Locating the stripped string inside the raw string stays inside the raw
string: the found index plus the stripped length is bounded by the raw
length (also when find fails and toNat collapses -1 to 0). -/
theorem pyFind_strip_bound (raw : List Char) :
    (pyFind raw (pyStrip raw)).toNat + (pyStrip raw).length ≤ raw.length := by
  cases hf : pyFindAux raw (pyStrip raw) (raw.length + 1) 0 with
  | none =>
    simp only [pyFind, hf]
    have h0 : ((-1 : Int)).toNat = 0 := rfl
    rw [h0]
    simpa using pyStrip_length_le raw
  | some k =>
    obtain ⟨hp, _, hk⟩ := pyFindAux_some raw (pyStrip raw) _ 0 k hf
    have hpre := (List.isPrefixOf_iff_prefix.mp hp).length_le
    rw [List.length_drop] at hpre
    simp only [pyFind, hf, Int.toNat_natCast]
    omega

/-- Chained ranges stay chained when the lower bound shrinks. -/
theorem RChain_mono_lo {lo' lo hi : Nat} {l : List (Nat × Nat)}
    (h : lo' ≤ lo) (hc : RChain lo l hi) : RChain lo' l hi := by
  cases l with
  | nil => exact le_trans h hc
  | cons p rest =>
    obtain ⟨s, e⟩ := p
    exact ⟨le_trans h hc.1, hc.2.1, hc.2.2⟩

/-- Chained ranges stay chained when the upper bound grows. -/
theorem RChain_mono_hi {lo hi hi' : Nat} {l : List (Nat × Nat)}
    (h : hi ≤ hi') (hc : RChain lo l hi) : RChain lo l hi' := by
  induction l generalizing lo with
  | nil => exact le_trans hc h
  | cons p rest ih =>
    obtain ⟨s, e⟩ := p
    exact ⟨hc.1, hc.2.1, ih hc.2.2⟩

/-- The lower bound of a chain is bounded by its upper bound. -/
theorem RChain_le {lo hi : Nat} {l : List (Nat × Nat)}
    (hc : RChain lo l hi) : lo ≤ hi := by
  induction l generalizing lo with
  | nil => exact hc
  | cons p rest ih =>
    obtain ⟨s, e⟩ := p
    exact le_trans (le_trans hc.1 hc.2.1.le) (ih hc.2.2)

/-- Concatenation of chains meeting at a middle bound. -/
theorem RChain_append {lo m hi : Nat} {l₁ l₂ : List (Nat × Nat)}
    (h₁ : RChain lo l₁ m) (h₂ : RChain m l₂ hi) :
    RChain lo (l₁ ++ l₂) hi := by
  induction l₁ generalizing lo with
  | nil => exact RChain_mono_lo h₁ h₂
  | cons p rest ih =>
    obtain ⟨s, e⟩ := p
    exact ⟨h₁.1, h₁.2.1, ih h₁.2.2⟩

/-- Elements of a chain lie between the bounds and are non-degenerate. -/
theorem RChain_elem {lo hi : Nat} {l : List (Nat × Nat)}
    (hc : RChain lo l hi) : ∀ p ∈ l, lo ≤ p.1 ∧ p.1 < p.2 ∧ p.2 ≤ hi := by
  induction l generalizing lo with
  | nil => intro p hp; simp at hp
  | cons q rest ih =>
    obtain ⟨s, e⟩ := q
    intro p hp
    rcases List.mem_cons.mp hp with rfl | hmem
    · exact ⟨hc.1, hc.2.1, RChain_le hc.2.2⟩
    · obtain ⟨h1, h2, h3⟩ := ih hc.2.2 p hmem
      exact ⟨le_trans (le_trans hc.1 hc.2.1.le) h1, h2, h3⟩

/-- Chained ranges are pairwise ordered end-before-start. -/
theorem RChain_pairwise {lo hi : Nat} {l : List (Nat × Nat)}
    (hc : RChain lo l hi) : l.Pairwise (fun a b => a.2 ≤ b.1) := by
  induction l generalizing lo with
  | nil => exact List.Pairwise.nil
  | cons q rest ih =>
    obtain ⟨s, e⟩ := q
    refine List.Pairwise.cons ?_ (ih hc.2.2)
    intro b hb
    exact (RChain_elem hc.2.2 b hb).1

/-- Appending one chained range to a chain. -/
theorem RChain_snoc {lo hi : Nat} {l : List (Nat × Nat)} {s e : Nat}
    (hc : RChain lo l hi) (hs : hi ≤ s) (hse : s < e) :
    RChain lo (l ++ [(s, e)]) e :=
  RChain_append hc ⟨hs, hse, le_rfl⟩

/-- The whitespace skip never moves backwards and respects its bound. -/
theorem skipSpacesF_bounds (text : List Char) (bound : Nat) :
    ∀ (fuel cursor : Nat), cursor ≤ skipSpacesF text bound fuel cursor ∧
      skipSpacesF text bound fuel cursor ≤ max cursor bound := by
  intro fuel
  induction fuel with
  | zero =>
    intro cursor
    exact ⟨le_rfl, le_max_left _ _⟩
  | succ fuel ih =>
    intro cursor
    simp only [skipSpacesF]
    split
    · rename_i hcond
      obtain ⟨h1, h2⟩ := ih (cursor + 1)
      have hcb : cursor < bound := hcond.1
      constructor
      · omega
      · omega
    · exact ⟨le_rfl, le_max_left _ _⟩

/-- The boundary absorber never moves backwards and stays within the text. -/
theorem absorbBoundariesF_bounds (text : List Char) :
    ∀ (fuel e : Nat), e ≤ absorbBoundariesF text fuel e ∧
      absorbBoundariesF text fuel e ≤ max e text.length := by
  intro fuel
  induction fuel with
  | zero =>
    intro e
    exact ⟨le_rfl, le_max_left _ _⟩
  | succ fuel ih =>
    intro e
    simp only [absorbBoundariesF]
    split
    · rename_i hcond
      obtain ⟨h1, h2⟩ := ih (e + 1)
      have hcb : e < text.length := hcond.1
      constructor
      · omega
      · omega
    · exact ⟨le_rfl, le_max_left _ _⟩

/-- The sentence-end scanner never moves backwards and stays within the
text. -/
theorem findSentenceEndF_bounds (text : List Char) :
    ∀ (fuel e : Nat), e ≤ findSentenceEndF text fuel e ∧
      findSentenceEndF text fuel e ≤ max e text.length := by
  intro fuel
  induction fuel with
  | zero =>
    intro e
    exact ⟨le_rfl, le_max_left _ _⟩
  | succ fuel ih =>
    intro e
    simp only [findSentenceEndF]
    split
    · rename_i hlen
      split
      · obtain ⟨h1, h2⟩ := absorbBoundariesF_bounds text (text.length + 1) (e + 1)
        constructor
        · omega
        · omega
      · obtain ⟨h1, h2⟩ := ih (e + 1)
        constructor
        · omega
        · omega
    · exact ⟨le_rfl, le_max_left _ _⟩

/-- A successful backwards space search lies in the requested window and
inside the text. -/
theorem pyRFindSpaceAux_some (text : List Char) (lo : Nat) :
    ∀ (j k : Nat), pyRFindSpaceAux text lo j = some k →
      lo ≤ k ∧ k + 1 ≤ j ∧ k < text.length := by
  intro j
  induction j with
  | zero =>
    intro k h
    simp [pyRFindSpaceAux] at h
  | succ j ih =>
    intro k h
    simp only [pyRFindSpaceAux] at h
    split at h
    · rename_i hlo
      split at h
      · rename_i hcond
        cases h
        exact ⟨hlo, by omega, hcond.2⟩
      · obtain ⟨h1, h2, h3⟩ := ih k h
        exact ⟨h1, by omega, h3⟩
    · cases h

/-- The cut position of a split iteration moves forward, stays within the
span, and cuts at most max_chars after the cursor. -/
theorem pieceEndAt_bounds (text : List Char) (e maxc c : Nat) (hce : c < e) :
    c ≤ pieceEndAt text e maxc c ∧ pieceEndAt text e maxc c ≤ e ∧
      pieceEndAt text e maxc c ≤ c + maxc := by
  unfold pieceEndAt
  by_cases h1 : min (c + maxc) e < e
  · simp only [if_pos h1]
    cases haux : pyRFindSpaceAux text c (min (min (c + maxc) e) text.length) with
    | none =>
      simp only [pyRFindSpace, haux]
      rw [if_neg (by omega)]
      omega
    | some k =>
      simp only [pyRFindSpace, haux]
      obtain ⟨h1k, h2k, h3k⟩ := pyRFindSpaceAux_some text c _ k haux
      by_cases hck : (c : Int) < (k : Int)
      · rw [if_pos hck]
        simp only [Int.toNat_natCast]
        omega
      · rw [if_neg hck]
        omega
  · simp only [if_neg h1]
    omega

/-- Chain and quality of the pieces produced by the split loop: the ranges
are chained inside the span, and every piece text is its own strip,
non-empty, and at most max_chars long. -/
theorem splitSpanF_props (text : List Char) (e maxc : Nat) :
    ∀ (fuel cursor : Nat), cursor ≤ e → e ≤ text.length →
      RChain cursor (pieceRanges (splitSpanF text e maxc fuel cursor)) e ∧
      ∀ p ∈ splitSpanF text e maxc fuel cursor,
        pyStrip p.1 = p.1 ∧ p.1 ≠ [] ∧ p.1.length ≤ maxc := by
  intro fuel
  induction fuel with
  | zero =>
    intro cursor hce hel
    exact ⟨hce, by intro p hp; simp [splitSpanF] at hp⟩
  | succ fuel ih =>
    intro cursor hce hel
    simp only [splitSpanF]
    split
    · rename_i hcur
      have hskip := skipSpacesF_bounds text e (e + 1) cursor
      set c := skipSpacesF text e (e + 1) cursor with hceq
      split
      · rename_i hclt
        have hpe := pieceEndAt_bounds text e maxc c hclt
        set pe := pieceEndAt text e maxc c with hpeeq
        have hrawlen : (pySlice text c pe).length = pe - c :=
          pySlice_length text c pe (le_trans hpe.2.1 hel)
        split
        · rename_i htr
          obtain ⟨hchain, hgood⟩ := ih pe hpe.2.1 hel
          exact ⟨RChain_mono_lo (by omega) hchain, hgood⟩
        · rename_i htr
          obtain ⟨hchain, hgood⟩ := ih pe hpe.2.1 hel
          have hfind := pyFind_strip_bound (pySlice text c pe)
          rw [hrawlen] at hfind
          have htrlen : 0 < (pyStrip (pySlice text c pe)).length :=
            List.length_pos.mpr htr
          constructor
          · simp only [pieceRanges, List.map_cons]
            refine ⟨by omega, by omega, ?_⟩
            exact RChain_mono_lo (by omega) hchain
          · intro p hp
            rcases List.mem_cons.mp hp with rfl | hmem
            · exact ⟨pyStrip_idem _, htr,
                show (pyStrip (pySlice text c pe)).length ≤ maxc by omega⟩
            · exact hgood p hmem
      · refine ⟨hce, ?_⟩
        intro p hp
        simp at hp
    · refine ⟨hce, ?_⟩
      intro p hp
      simp at hp

/-- The sentence spans produced by the extraction loop are chained within
the text: each trimmed span is non-degenerate, spans do not overlap, and
they appear in increasing position order. -/
theorem extractSpansF_chain (text : List Char) :
    ∀ (fuel cursor : Nat), cursor ≤ text.length →
      RChain cursor (extractSpansF text fuel cursor) text.length := by
  intro fuel
  induction fuel with
  | zero =>
    intro cursor hcur
    exact hcur
  | succ fuel ih =>
    intro cursor hcur
    simp only [extractSpansF]
    split
    · rename_i hlt
      have hskip := skipSpacesF_bounds text text.length (text.length + 1) cursor
      set c := skipSpacesF text text.length (text.length + 1) cursor with hceq
      split
      · rename_i hclt
        have hfind := findSentenceEndF_bounds text (text.length + 1) c
        set e := findSentenceEndF text (text.length + 1) c with heeq
        have hel : e ≤ text.length := by omega
        have hrawlen : (pySlice text c e).length = e - c :=
          pySlice_length text c e hel
        split
        · rename_i htr
          exact RChain_mono_lo (by omega) (ih e hel)
        · rename_i htr
          have hfb := pyFind_strip_bound (pySlice text c e)
          rw [hrawlen] at hfb
          have htrlen : 0 < (pyStrip (pySlice text c e)).length :=
            List.length_pos.mpr htr
          refine ⟨by omega, by omega, ?_⟩
          exact RChain_mono_lo (by omega) (ih e hel)
      · exact hcur
    · exact hcur

/-- The spans returned by _extract_sentence_spans are chained within the
text. -/
theorem extract_sentence_spans_chain (text : List Char) :
    RChain 0 (_extract_sentence_spans text) text.length :=
  extractSpansF_chain text (text.length + 1) 0 (Nat.zero_le _)

/-- Turning chained good pieces into chunks preserves chunk chain and
quality, whatever chunk indices get assigned. -/
theorem appendPieces_props (maxC : Nat) :
    ∀ (pieces : List (List Char × Nat × Nat)) (chunks : List TextChunk)
      (lo hi : Nat),
      RChain 0 (chunkRanges chunks) lo →
      RChain lo (pieceRanges pieces) hi →
      (∀ c ∈ chunks, GoodChunk maxC c) →
      (∀ p ∈ pieces, pyStrip p.1 = p.1 ∧ p.1 ≠ [] ∧ p.1.length ≤ maxC) →
      RChain 0 (chunkRanges (appendPieces chunks pieces)) hi ∧
      ∀ c ∈ appendPieces chunks pieces, GoodChunk maxC c := by
  intro pieces
  induction pieces with
  | nil =>
    intro chunks lo hi hch hpc hgc hgp
    exact ⟨RChain_mono_hi hpc hch, hgc⟩
  | cons p rest ih =>
    obtain ⟨t, s, e⟩ := p
    intro chunks lo hi hch hpc hgc hgp
    simp only [pieceRanges, List.map_cons] at hpc
    simp only [appendPieces]
    have hch' : RChain 0 (chunkRanges (chunks ++ [⟨chunks.length, t, s, e⟩])) e := by
      simp only [chunkRanges, List.map_append, List.map_cons, List.map_nil]
      exact RChain_snoc hch hpc.1 hpc.2.1
    have hgc' : ∀ c ∈ chunks ++ [⟨chunks.length, t, s, e⟩], GoodChunk maxC c := by
      intro c hc
      rcases List.mem_append.mp hc with hm | hm
      · exact hgc c hm
      · have hceq : c = ⟨chunks.length, t, s, e⟩ := by simpa using hm
        subst hceq
        have hg := hgp (t, s, e) (List.mem_cons_self _ _)
        refine ⟨?_, hg.2.2⟩
        show pyStrip t ≠ []
        rw [hg.1]
        exact hg.2.1
    exact ih (chunks ++ [⟨chunks.length, t, s, e⟩]) e hi hch' hpc.2.2 hgc'
      (fun q hq => hgp q (List.mem_cons_of_mem _ hq))

/-- The grouping invariant is monotone in the position bound. -/
theorem GroupInv_mono {maxC : Nat} {st : ChunkGroupState} {pos pos' : Nat}
    (h : pos ≤ pos') (hi : GroupInv maxC st pos) : GroupInv maxC st pos' := by
  obtain ⟨hg, hnone | hsome⟩ := hi
  · exact ⟨hg, Or.inl ⟨hnone.1, RChain_mono_hi h hnone.2.1, hnone.2.2⟩⟩
  · obtain ⟨gs, p, h1, h2, h3, h4, h5⟩ := hsome
    exact ⟨hg, Or.inr ⟨gs, p, h1, h2, h3, le_trans h4 h, h5⟩⟩

/-- Flushing the group preserves the invariant and closes the group. -/
theorem flush_group_inv {maxC : Nat} {st : ChunkGroupState} {pos : Nat}
    (h : GroupInv maxC st pos) :
    GroupInv maxC (flush_group st) pos ∧
      (flush_group st).grouped_start = none ∧
      (flush_group st).grouped_text_parts = [] ∧
      (flush_group st).grouped_chars = 0 ∧
      (flush_group st).grouped_sentences = 0 := by
  obtain ⟨hgood, hnone | hsome⟩ := h
  · obtain ⟨hgs, hch, hparts, hchars, hsen⟩ := hnone
    simp only [flush_group, hgs]
    refine ⟨⟨hgood, Or.inl ⟨?_, hch, ?_, ?_, ?_⟩⟩, ?_, ?_, ?_, ?_⟩
    all_goals trivial
  · obtain ⟨gs, p, hgs, hch, hlt, hle, hsen, hparts, hstrip, hne, hlen⟩ := hsome
    simp only [flush_group, hgs, hparts]
    rw [if_neg (by simp)]
    refine ⟨⟨?_, Or.inl ⟨rfl, ?_, rfl, rfl, rfl⟩⟩, rfl, rfl, rfl, rfl⟩
    · intro c hc
      rcases List.mem_append.mp hc with hm | hm
      · exact hgood c hm
      · have hceq : c = ⟨st.chunks.length, joinSpace [p], gs, st.grouped_end⟩ := by
          simpa using hm
        subst hceq
        constructor
        · show pyStrip (joinSpace [p]) ≠ []
          show pyStrip p ≠ []
          rw [hstrip]
          exact hne
        · show (joinSpace [p]).length ≤ maxC
          show p.length ≤ maxC
          exact hlen
    · show RChain 0 (chunkRanges (st.chunks ++
          [⟨st.chunks.length, joinSpace [p], gs, st.grouped_end⟩])) pos
      simp only [chunkRanges, List.map_append, List.map_cons, List.map_nil]
      exact RChain_mono_hi hle (RChain_snoc hch le_rfl hlt)

/-- The per-iteration character limit is the clamped max_chars itself. -/
theorem activeCharLimitAt_eq (maxC : Nat) (b : Bool) (h1 : 1 ≤ maxC)
    (h2 : maxC ≤ 200) : activeCharLimitAt maxC b = maxC := by
  cases b with
  | false =>
    show (if maxC < 100 then max 1 maxC else maxC) = maxC
    split <;> omega
  | true =>
    show (if min maxC 200 < 100 then max 1 (min maxC 200) else min maxC 200) = maxC
    split <;> omega

/-- The per-iteration sentence limit is always 1 after clamping. -/
theorem activeSentenceLimitAt_eq (b : Bool) :
    activeSentenceLimitAt 1 b = 1 := by
  cases b <;> simp [activeSentenceLimitAt]

/-- Processing one sentence span preserves the grouping invariant, moving
the position bound to the span end. -/
theorem processSpan_inv (text : List Char) (maxC : Nat)
    (hm1 : 1 ≤ maxC) (hm2 : maxC ≤ 200)
    (st : ChunkGroupState) (pos s e : Nat)
    (hps : pos ≤ s) (hse : s < e) (hel : e ≤ text.length)
    (hinv : GroupInv maxC st pos) :
    GroupInv maxC (processSpan text maxC 1 st (s, e)) e := by
  simp only [processSpan]
  split
  · exact GroupInv_mono (by omega) hinv
  · rename_i htr
    rw [activeCharLimitAt_eq maxC (st.chunks.length == 0) hm1 hm2,
      activeSentenceLimitAt_eq (st.chunks.length == 0)]
    split
    · rename_i hbig
      obtain ⟨hinv1, hgs1, hparts1, hchars1, hsent1⟩ := flush_group_inv hinv
      obtain ⟨hgood1, hcase1⟩ := hinv1
      have hchain1 : RChain 0 (chunkRanges (flush_group st).chunks) pos := by
        rcases hcase1 with ⟨_, hch, _⟩ | ⟨gs, p, hgs, _⟩
        · exact hch
        · rw [hgs1] at hgs
          cases hgs
      have hsp := splitSpanF_props text e maxC (e + 1) s (le_of_lt hse) hel
      have happ := appendPieces_props maxC (splitSpanF text e maxC (e + 1) s)
        (flush_group st).chunks s e (RChain_mono_hi hps hchain1) hsp.1 hgood1
        hsp.2
      simp only [_split_span_by_chars]
      exact ⟨happ.2, Or.inl ⟨hgs1, happ.1, hparts1, hchars1, hsent1⟩⟩
    · rename_i hfits
      obtain ⟨hgood, hcase⟩ := hinv
      rcases hcase with ⟨hgs0, hch0, hparts0, hchars0, hsent0⟩ | hsome
      · rw [if_neg (by simp [hsent0])]
        refine ⟨hgood,
          Or.inr ⟨s, pyStrip (pySlice text s e), ?_, ?_, hse, le_rfl, ?_, ?_,
            pyStrip_idem _, htr, by omega⟩⟩
        · show (match st.grouped_start with
            | none => some s
            | some gs => some gs) = some s
          rw [hgs0]
        · exact RChain_mono_hi hps hch0
        · show st.grouped_sentences + 1 = 1
          omega
        · show st.grouped_text_parts ++ [pyStrip (pySlice text s e)] =
            [pyStrip (pySlice text s e)]
          rw [hparts0]
          rfl
      · obtain ⟨gs, p, hgs, hch, hlt, hle, hsen, hparts, hstrip, hne, hlen⟩ :=
          hsome
        rw [if_pos (Or.inl (by omega))]
        obtain ⟨hinv1, hgs1, hparts1, hchars1, hsent1⟩ := flush_group_inv
          ⟨hgood, Or.inr ⟨gs, p, hgs, hch, hlt, hle, hsen, hparts, hstrip,
            hne, hlen⟩⟩
        obtain ⟨hgood1, hcase1⟩ := hinv1
        have hchain1 : RChain 0 (chunkRanges (flush_group st).chunks) pos := by
          rcases hcase1 with ⟨_, hch1, _⟩ | ⟨gs1, p1, hgs1x, _⟩
          · exact hch1
          · rw [hgs1] at hgs1x
            cases hgs1x
        refine ⟨hgood1,
          Or.inr ⟨s, pyStrip (pySlice text s e), ?_, ?_, hse, le_rfl, ?_, ?_,
            pyStrip_idem _, htr, by omega⟩⟩
        · show (match (flush_group st).grouped_start with
            | none => some s
            | some gs => some gs) = some s
          rw [hgs1]
        · exact RChain_mono_hi hps hchain1
        · show (flush_group st).grouped_sentences + 1 = 1
          omega
        · show (flush_group st).grouped_text_parts ++
              [pyStrip (pySlice text s e)] = [pyStrip (pySlice text s e)]
          rw [hparts1]
          rfl

/-- Folding the grouping step over chained spans preserves the invariant up
to the end of the text. -/
theorem foldl_processSpan_inv (text : List Char) (maxC : Nat)
    (hm1 : 1 ≤ maxC) (hm2 : maxC ≤ 200) :
    ∀ (spans : List (Nat × Nat)) (st : ChunkGroupState) (pos : Nat),
      RChain pos spans text.length → GroupInv maxC st pos →
      GroupInv maxC (spans.foldl (processSpan text maxC 1) st) text.length := by
  intro spans
  induction spans with
  | nil =>
    intro st pos hch hinv
    exact GroupInv_mono hch hinv
  | cons sp rest ih =>
    obtain ⟨s, e⟩ := sp
    intro st pos hch hinv
    simp only [List.foldl_cons]
    have hel : e ≤ text.length := RChain_le hch.2.2
    exact ih _ e hch.2.2
      (processSpan_inv text maxC hm1 hm2 st pos s e hch.1 hch.2.1 hel hinv)

/-- Claim C4: for every text and max_chars >= 1 (and any sentence limit
>= 1), split_text_into_chunks succeeds and returns chunks that are ordered
by start_char, pairwise non-overlapping as half-open ranges, each
non-degenerate and non-empty after trimming, and each at most
min(max_chars, 200) characters long.  The length bound holds without the
hard-split exception the claim allows: even hard-split pieces respect the
clamped limit. -/
theorem c4_split_text_into_chunks_sound (text : List Char)
    (max_chars max_sentences_per_chunk : Nat)
    (h1 : 1 ≤ max_chars) (h2 : 1 ≤ max_sentences_per_chunk) :
    ∃ chunks,
      split_text_into_chunks text max_chars max_sentences_per_chunk =
        .ok chunks ∧
      chunks.Pairwise (fun a b => a.start_char < b.start_char) ∧
      chunks.Pairwise (fun a b => a.end_char ≤ b.start_char) ∧
      ∀ c ∈ chunks, c.start_char < c.end_char ∧ pyStrip c.text ≠ [] ∧
        c.text.length ≤ min max_chars 200 := by
  have hnc : ¬ (max_chars < 1) := by omega
  have hns : ¬ (max_sentences_per_chunk < 1) := by omega
  have hms : min max_sentences_per_chunk 1 = 1 := by omega
  simp only [split_text_into_chunks]
  rw [if_neg hnc, if_neg hns, hms]
  set maxC := min max_chars 200 with hmc
  have hm1 : 1 ≤ maxC := by omega
  have hm2 : maxC ≤ 200 := by omega
  have hchain0 := extract_sentence_spans_chain text
  have hinv0 : GroupInv maxC ⟨[], [], none, 0, 0, 0⟩ 0 := by
    refine ⟨?_, Or.inl ⟨rfl, ?_, rfl, rfl, rfl⟩⟩
    · intro c hc
      simp at hc
    · exact le_refl 0
  have hfin := foldl_processSpan_inv text maxC hm1 hm2
    (_extract_sentence_spans text) ⟨[], [], none, 0, 0, 0⟩ 0
    (RChain_mono_lo (Nat.zero_le 0) hchain0) hinv0
  obtain ⟨hinvF, hgsF, _, _, _⟩ := flush_group_inv hfin
  obtain ⟨hgoodF, hcaseF⟩ := hinvF
  have hchainF : RChain 0
      (chunkRanges (flush_group
        ((_extract_sentence_spans text).foldl (processSpan text maxC 1)
          ⟨[], [], none, 0, 0, 0⟩)).chunks) text.length := by
    rcases hcaseF with ⟨_, hch, _⟩ | ⟨gs, p, hgs, _⟩
    · exact hch
    · rw [hgsF] at hgs
      cases hgs
  refine ⟨_, rfl, ?_, ?_, ?_⟩
  · have hq := List.pairwise_map.mp (RChain_pairwise hchainF)
    refine List.Pairwise.imp_of_mem ?_ hq
    intro a b ha hb hr
    have hae := RChain_elem hchainF (a.start_char, a.end_char)
      (List.mem_map_of_mem _ ha)
    exact lt_of_lt_of_le hae.2.1 hr
  · exact List.pairwise_map.mp (RChain_pairwise hchainF)
  · intro c hc
    have hce := RChain_elem hchainF (c.start_char, c.end_char)
      (List.mem_map_of_mem _ hc)
    have hg := hgoodF c hc
    exact ⟨hce.2.1, hg.1, hg.2⟩

/-- Witness for C4 on a concrete two-sentence text at max_chars = 120. -/
theorem c4_split_text_into_chunks_sound_witness :
    (1 ≤ 120 ∧ 1 ≤ 1) ∧
    (∃ chunks,
      split_text_into_chunks "Hi there. Bye.".toList 120 1 = .ok chunks ∧
      chunks.Pairwise (fun a b => a.start_char < b.start_char) ∧
      chunks.Pairwise (fun a b => a.end_char ≤ b.start_char) ∧
      ∀ c ∈ chunks, c.start_char < c.end_char ∧ pyStrip c.text ≠ [] ∧
        c.text.length ≤ min 120 200) :=
  ⟨⟨by decide, by decide⟩,
    c4_split_text_into_chunks_sound "Hi there. Bye.".toList 120 1
      (by decide) (by decide)⟩
